import Mathlib

/-!
Verification development for the spfy request pipeline.

Shallow embedding of:
  * `_get_cache_key` (src/spfy/asynch/client.py)
  * `get_next_params_list` / `all` (src/spfy/result.py, src/spfy/async/result.py)
  * `_check_response` / `_internal_call` (src/spfy/asynch/client.py, src/spfy/client.py)
  * `should_ignore_exception` / `limited_as_completed` (src/spfy/asynch/__init__.py)
-/

namespace Spfy

/-! ### JSON values and `ujson.dumps` for flat parameter dicts

`_internal_call` passes the sanitized query-parameter dict to `json.dumps`
(ujson), which renders the keys in the dict's insertion order, compactly and
without sorting.  Parameter dicts are modeled as association lists in
insertion order; values that occur as query parameters are strings or
integers. -/

inductive JVal where
  | s (v : String)
  | n (v : Nat)
deriving DecidableEq, Repr

def jvalRender : JVal → String
  | .s v => "\"" ++ v ++ "\""
  | .n v => toString v

/-- Model of `ujson.dumps` on a flat string-keyed dict: keys rendered in
insertion order, compact separators, no key sorting. -/
def jsonDumps (params : List (String × JVal)) : String :=
  "\x7b" ++ String.intercalate ","
      (params.map (fun kv => "\"" ++ kv.1 ++ "\":" ++ jvalRender kv.2)) ++ "\x7d"

/-- Digest of `hashlib.sha1`, modeled as the exact byte stream fed through
`update`: sha1 is a fixed deterministic function of that stream, and the
spec treats it as a deterministic, collision-free fingerprint, so two
digests are modeled equal exactly when the hashed streams are equal. -/
structure Sha1 where
  stream : List Char
deriving DecidableEq, Repr

def sha1hex (stream : List Char) : Sha1 := ⟨stream⟩

/-- Model of `SpotifyClient._get_cache_key` (src/spfy/asynch/client.py):
`sha1(url.encode())`, then `update(json.dumps(params).encode())` when the
params dict is non-empty, then `update(payload)` when the payload is
non-empty. -/
def get_cache_key (url : String) (params : List (String × JVal))
    (payload : Option String) : Sha1 :=
  let s0 := url.data
  let s1 := if params.isEmpty then s0 else s0 ++ (jsonDumps params).data
  let s2 := match payload with
    | none => s1
    | some p => if p = "" then s1 else s1 ++ p.data
  sha1hex s2

/-- Concrete parameter dict for the C2 counterexample. -/
def paramsAB : List (String × JVal) := [("a", .s "1"), ("b", .s "2")]

/-- Same key/value pairs as `paramsAB`, inserted in the other order. -/
def paramsBA : List (String × JVal) := [("b", .s "2"), ("a", .s "1")]

/-! ### Pagination (src/spfy/result.py and src/spfy/async/result.py)

`get_next_params_list` parses the current page's `href` query string
(`parse_qs`, first values), pops `limit` (default 20) and `offset`
(default 0), and derives one parameter set per `range(offset + limit,
total, max_limit)` offset, where `max_limit = limit_argument or 50`.
URL/query parsing is a library call; the parsed first-value query map of
`href` is modeled as data carried by the page. -/

structure Page where
  nextUrl : Option String
  href : Option String
  queryParams : List (String × String)
  total : Nat
  items : List Nat
deriving DecidableEq, Repr

/-- Python truthiness of an optional string (`None` and `""` are falsy). -/
def truthyStr : Option String → Bool
  | none => false
  | some s => s ≠ ""

/-- Model of Python `range(start, stop, step)` for a positive step. -/
def pyRange (start stop step : Nat) : List Nat :=
  (List.range ((stop - start + (step - 1)) / step)).map (fun i => start + i * step)

/-- Value of `limit or 50`: `None` and `0` are falsy in Python. -/
def pageSize (limitArg : Option Nat) : Nat :=
  match limitArg with
  | none => 50
  | some 0 => 50
  | some n => n

/-- One decimal digit of a numeral. -/
def charDigit (c : Char) : Option Nat :=
  if '0' ≤ c ∧ c ≤ '9' then some (c.toNat - '0'.toNat) else none

def parseNatCore : List Char → Nat → Option Nat
  | [], acc => some acc
  | c :: cs, acc =>
    match charDigit c with
    | some d => parseNatCore cs (acc * 10 + d)
    | none => none

/-- Model of Python `int(...)` on a decimal numeral string. -/
def parseNat (s : String) : Option Nat :=
  match s.data with
  | [] => none
  | ds => parseNatCore ds 0

/-- Value of `int(params.pop("limit", 20))` on the parsed query map
(query values are assumed to be decimal numerals, as produced by the API). -/
def pageLimit (page : Page) : Nat :=
  ((page.queryParams.lookup "limit").bind parseNat).getD 20

/-- Value of `int(params.pop("offset", 0))` on the parsed query map. -/
def pageOffset (page : Page) : Nat :=
  ((page.queryParams.lookup "offset").bind parseNat).getD 0

/-- One derived parameter set: the residual query params (after popping
`limit` and `offset`) together with the new `limit` and `offset` entries. -/
structure NextParams where
  rest : List (String × String)
  limit : Nat
  offset : Nat
deriving DecidableEq, Repr

/-- Model of `SpotifyResult.get_next_params_list` (identical in
src/spfy/result.py lines 118-130 and src/spfy/async/result.py lines
124-132). -/
def get_next_params_list (page : Page) (limitArg : Option Nat) : List NextParams :=
  if truthyStr page.nextUrl && truthyStr page.href then
    let maxLimit := pageSize limitArg
    let rest := page.queryParams.filter (fun kv => kv.1 ≠ "limit" && kv.1 ≠ "offset")
    (pyRange (pageOffset page + pageLimit page) page.total maxLimit).map
      (fun off => ⟨rest, maxLimit, off⟩)
  else []

/-- Offsets of the derived parameter sets. -/
def derivedOffsets (page : Page) (limitArg : Option Nat) : List Nat :=
  (get_next_params_list page limitArg).map (·.offset)

/-- The spec's pagination-boundary page: total 120, first-page offset 0,
first-page limit 50, with a next page available. -/
def page120 : Page :=
  ⟨some "https://api.spotify.com/v1/me/tracks?offset=50&limit=50",
   some "https://api.spotify.com/v1/me/tracks?offset=0&limit=50",
   [("offset", "0"), ("limit", "50")], 120, []⟩

/-! ### Request executor (src/spfy/asynch/client.py `_internal_call` /
`_check_response`, and the synchronous variants in src/spfy/client.py)

The server is an oracle mapping the attempt index to a response; the
relevant response data are the HTTP status, the `Retry-After` header and
the body text.  Authentication, the redis cache transaction bodies and the
usage counter are orthogonal to the retry logic and are abstracted: a 304
answer is modeled as the opaque `cachedResult` outcome.  The tenacity
wrapper around the asynch `_internal_call` retries only transport-level
exceptions, which the oracle never raises, so it is transparent here.
Recursion is fueled because the rate-limit loop is unbounded by design;
`none` means the fuel ran out. -/

structure Resp where
  status : Nat
  retryAfter : Option Nat
  text : String
deriving DecidableEq, Repr

inductive SpfyError where
  | rateLimited (retryAfter : Nat)
  | forbidden
  | apiError
  | deviceUnavailable
deriving DecidableEq, Repr

inductive CallOutcome where
  | result (text : String)
  | emptyResult
  | cachedResult
deriving DecidableEq, Repr

/-- Observable executor events: each network attempt (recording the
`retries` and `check_202` arguments it was issued with) and each sleep. -/
inductive ExecEvent where
  | request (retries : Nat) (check202 : Bool)
  | sleep (secs : Nat)
deriving DecidableEq, Repr

/-- Model of `_check_response`: `raise_for_status` raises for any status
≥ 400; then 429 and 500..599 map to `SpotifyRateLimitException` carrying
`int(headers.get("Retry-After", 0))`, 403 to
`SpotifyForbiddenException`, anything else to `SpotifyException`. -/
def checkResponse (r : Resp) : Option SpfyError :=
  if 400 ≤ r.status then
    if r.status == 429 || (500 ≤ r.status && r.status < 600) then
      some (.rateLimited (r.retryAfter.getD 0))
    else if r.status == 403 then some .forbidden
    else some .apiError
  else none

/-- Model of the asynchronous `SpotifyClient._internal_call`
(src/spfy/asynch/client.py lines 257-322).  Control flow per attempt:
304 is served from the cache; `check_202 and status == 202` sleeps 5s and
recurses with `retries - 1` — the recursive call spells out only
`(method, url, payload, params, headers, retries=retries-1)`, so
`check_202` falls back to its default `False`; a `SpotifyRateLimitException`
from `_check_response` sleeps `retry_after` and recurses with `retries`
unchanged (`check_202` again defaulted); otherwise a non-empty, non-null
body is the decoded result and an empty body is the implicit `None`. -/
def internal_call_asynch (server : Nat → Resp) :
    Nat → Nat → Nat → Bool → Option (List ExecEvent × Except SpfyError CallOutcome)
  | 0, _, _, _ => none
  | fuel + 1, attempt, retries, check202 =>
    let r := server attempt
    let ev : ExecEvent := .request retries check202
    if r.status == 304 then some ([ev], .ok .cachedResult)
    else if check202 && r.status == 202 then
      if 0 < retries then
        match internal_call_asynch server fuel (attempt + 1) (retries - 1) false with
        | none => none
        | some (evs, out) => some (ev :: .sleep 5 :: evs, out)
      else some ([ev], .error .deviceUnavailable)
    else
      match checkResponse r with
      | some (.rateLimited ra) =>
        match internal_call_asynch server fuel (attempt + 1) retries false with
        | none => none
        | some (evs, out) => some (ev :: .sleep ra :: evs, out)
      | some e => some ([ev], .error e)
      | none =>
        if r.text ≠ "" && r.text ≠ "null" then some ([ev], .ok (.result r.text))
        else some ([ev], .ok .emptyResult)

/-- Model of the synchronous `SpotifyClient._internal_call`
(src/spfy/client.py lines 83-134).  Same device-busy handling (the
recursion likewise defaults `check_202` to `False`); the rate-limit
recursion is `self._internal_call(method, url, payload, params)`, which
resets `headers`, `retries` and `check_202` to their defaults
(`None`, `0`, `False`); there is no 304/cache path. -/
def internal_call_sync (server : Nat → Resp) :
    Nat → Nat → Nat → Bool → Option (List ExecEvent × Except SpfyError CallOutcome)
  | 0, _, _, _ => none
  | fuel + 1, attempt, retries, check202 =>
    let r := server attempt
    let ev : ExecEvent := .request retries check202
    if check202 && r.status == 202 then
      if 0 < retries then
        match internal_call_sync server fuel (attempt + 1) (retries - 1) false with
        | none => none
        | some (evs, out) => some (ev :: .sleep 5 :: evs, out)
      else some ([ev], .error .deviceUnavailable)
    else
      match checkResponse r with
      | some (.rateLimited ra) =>
        match internal_call_sync server fuel (attempt + 1) 0 false with
        | none => none
        | some (evs, out) => some (ev :: .sleep ra :: evs, out)
      | some e => some ([ev], .error e)
      | none =>
        if r.text ≠ "" && r.text ≠ "null" then some ([ev], .ok (.result r.text))
        else some ([ev], .ok .emptyResult)

/-- A server that answers every attempt with HTTP 202 and an empty body. -/
def server202 : Nat → Resp := fun _ => ⟨202, none, ""⟩

/-- A server that answers the first attempt with 429 (`Retry-After: 0`)
and every later attempt with 200 and body `"x"`. -/
def server429then200 : Nat → Resp := fun n =>
  if n = 0 then ⟨429, some 0, ""⟩ else ⟨200, none, "x"⟩

/-! ### Exceptions and the ignore policy (src/spfy/asynch/__init__.py)

Python exception classes are modeled as a small flat hierarchy below
`Exception`; an exception object carries its class.  The
`ignore_exceptions` argument of `limited_as_completed` can be the literal
`True`, the default `False`, a tuple of exception classes, or — the case
probed by C10 — a bare exception class, which is an instance of `type`,
not of `tuple` or `Exception`.  Passing an exception *instance* would make
the second `isinstance` raise `TypeError` and is outside the behavior the
claims quantify over, so it is not part of the model. -/

inductive ExcClass where
  | exceptionCls
  | valueError
  | keyError
  | connectionError
deriving DecidableEq, Repr

/-- Subclass test of the modeled hierarchy: every class is a subclass of
itself and of `Exception`. -/
def ExcClass.isSubclassOf (a b : ExcClass) : Bool :=
  a == b || b == ExcClass.exceptionCls

structure PyExc where
  cls : ExcClass
deriving DecidableEq, Repr

inductive IgnoreArg where
  | boolTrue
  | boolFalse
  | tupleOf (cs : List ExcClass)
  | classOf (c : ExcClass)
deriving DecidableEq, Repr

/-- Value of `isinstance(ignore_exceptions, (tuple, Exception))`: only a
tuple satisfies it — a `bool` is neither, and a bare exception *class* is
an instance of `type`, not of `Exception`. -/
def isTupleOrExceptionInstance : IgnoreArg → Bool
  | .tupleOf _ => true
  | _ => false

/-- Value of `isinstance(exc, ignore_exceptions)` in the guarded branch
(only reached for a tuple): the exception's class must be a subclass of a
member. -/
def excInstanceOf (exc : PyExc) : IgnoreArg → Bool
  | .tupleOf cs => cs.any (fun c => exc.cls.isSubclassOf c)
  | _ => false

/-- Model of `should_ignore_exception` (src/spfy/asynch/__init__.py lines
15-19). -/
def should_ignore_exception (exc : PyExc) (ignore : IgnoreArg) : Bool :=
  ignore == .boolTrue || (isTupleOrExceptionInstance ignore && excInstanceOf exc ignore)

/-! ### The Limiter (`limited_as_completed`, src/spfy/asynch/__init__.py)

Reference concurrency model: single-threaded cooperative scheduling.  An
operation factory is an `Op`: the number of `asyncio.sleep(0)` rounds it
needs after being started until it is done, plus its outcome (a value or a
raised exception).  `asyncio.ensure_future` turns it into an in-flight
`Fut`, which additionally carries the task's `cancelled` flag (never set
by the Limiter).  Each pass of `first_to_finish`'s `while True` loop is
one `await asyncio.sleep(0)`: every in-flight future progresses by one
round, then the `for f in futures` scan picks the first finished future,
removes it, starts the next factory from the source (a no-op past the
end, `StopIteration` is swallowed), and only then returns the finished
future's result — which the generator yields, or, for a raised exception,
either logs and yields `None` (ignore policy matches) or raises
`LimitedAsCompletedError(original_exc, remaining_futures)`. -/

deriving instance DecidableEq for Except

structure Op (V : Type) where
  ticks : Nat
  outcome : Except PyExc V
deriving DecidableEq, Repr

structure Fut (V : Type) where
  ticks : Nat
  outcome : Except PyExc V
  cancelled : Bool
deriving DecidableEq, Repr

/-- Model of `asyncio.ensure_future`: start an operation; a fresh task is
not cancelled. -/
def ensure_future {V : Type} (op : Op V) : Fut V := ⟨op.ticks, op.outcome, false⟩

/-- One `await asyncio.sleep(0)`: every in-flight future progresses one
round; a finished future stays finished. -/
def advance {V : Type} (fs : List (Fut V)) : List (Fut V) :=
  fs.map (fun f => { f with ticks := f.ticks - 1 })

/-- The `for f in futures: if f.done(): futures.remove(f)` scan: find the
first finished future and the list with it removed. -/
def extractDone {V : Type} : List (Fut V) → Option (Fut V × List (Fut V))
  | [] => none
  | f :: fs =>
    if f.ticks = 0 then some (f, fs)
    else
      match extractDone fs with
      | some (g, gs) => some (g, f :: gs)
      | none => none

theorem advance_length {V : Type} (fs : List (Fut V)) :
    (advance fs).length = fs.length := by
  simp [advance]

theorem advance_ne_nil {V : Type} {fs : List (Fut V)} (h : fs ≠ []) :
    advance fs ≠ [] := by
  cases fs with
  | nil => exact absurd rfl h
  | cons f fs => simp [advance]

theorem extractDone_eq_none {V : Type} {fs : List (Fut V)}
    (h : extractDone fs = none) : ∀ f ∈ fs, f.ticks ≠ 0 := by
  induction fs with
  | nil => intro f hf; cases hf
  | cons g gs ih =>
    intro f hf
    by_cases hg : g.ticks = 0
    · simp [extractDone, hg] at h
    · rcases List.mem_cons.mp hf with hf | hf
      · simpa [hf] using hg
      · refine ih ?_ f hf
        cases he : extractDone gs with
        | none => rfl
        | some p => simp [extractDone, hg, he] at h

/-- Total remaining rounds of an in-flight list; the termination measure
of the polling loop. -/
def totalTicks {V : Type} (fs : List (Fut V)) : Nat :=
  (fs.map (·.ticks)).sum

theorem totalTicks_advance_le {V : Type} (fs : List (Fut V)) :
    totalTicks (advance fs) ≤ totalTicks fs := by
  induction fs with
  | nil => simp [totalTicks, advance]
  | cons f gs ih =>
    simp only [totalTicks, advance, List.map, List.sum_cons] at ih ⊢
    omega

theorem totalTicks_advance_lt {V : Type} {fs : List (Fut V)} (h : fs ≠ [])
    (hall : ∀ f ∈ advance fs, f.ticks ≠ 0) :
    totalTicks (advance fs) < totalTicks fs := by
  cases fs with
  | nil => exact absurd rfl h
  | cons f gs =>
    have hf : f.ticks - 1 ≠ 0 := by
      have := hall { f with ticks := f.ticks - 1 } (by simp [advance])
      simpa using this
    have hle := totalTicks_advance_le gs
    simp only [totalTicks, advance, List.map, List.sum_cons] at hle ⊢
    omega

/-- The `while True` polling loop of `first_to_finish`: repeat
`await asyncio.sleep(0)` until some in-flight future is finished; return
the in-flight count observed at each round, the finished future, and the
in-flight list with it removed. -/
def poll_rounds {V : Type} (fs : List (Fut V)) (h : fs ≠ []) :
    List Nat × (Fut V × List (Fut V)) :=
  match h2 : extractDone (advance fs) with
  | some fr => ([(advance fs).length], fr)
  | none =>
    match poll_rounds (advance fs) (advance_ne_nil h) with
    | (cs, fr) => ((advance fs).length :: cs, fr)
termination_by totalTicks fs
decreasing_by
  exact totalTicks_advance_lt h (extractDone_eq_none h2)

/-- Result of one `first_to_finish` call, as seen at the instant control
returns to the generator: a yielded value (with the exception logged when
the ignore policy matched) together with the in-flight and source state —
the backfilled future is already in-flight — or a propagated
`LimitedAsCompletedError` carrying the original exception and the
remaining in-flight futures. -/
inductive StepRes (V : Type) where
  | yielded (v : Option V) (logged : Option PyExc) (fs : List (Fut V)) (pending : List (Op V))
  | errored (e : PyExc) (remaining : List (Fut V)) (pending : List (Op V))

/-- The `try: newf = next(coros) ... except StopIteration: pass` block:
start the next factory from the source into the freed slot; a no-op when
the source is exhausted.  Returns the new in-flight list and the rest of
the source. -/
def backfill {V : Type} (rest : List (Fut V)) (pending : List (Op V)) :
    List (Fut V) × List (Op V) :=
  match pending with
  | [] => (rest, [])
  | p :: ps => (rest ++ [ensure_future p], ps)

/-- The `try: return f.result() except Exception as exc:` block of
`first_to_finish`, applied to the finished future `f` in the state after
removal and backfill: a normal result is yielded; an ignored failure is
logged and yielded as `None`; any other failure raises
`LimitedAsCompletedError` with the in-flight futures attached. -/
def step_result {V : Type} (f : Fut V) (rest : List (Fut V)) (pending : List (Op V))
    (ignore : IgnoreArg) : StepRes V :=
  match f.outcome with
  | .ok v =>
    .yielded (some v) none (backfill rest pending).1 (backfill rest pending).2
  | .error e =>
    if should_ignore_exception e ignore then
      .yielded none (some e) (backfill rest pending).1 (backfill rest pending).2
    else .errored e (backfill rest pending).1 (backfill rest pending).2

/-- Model of `first_to_finish` (src/spfy/asynch/__init__.py lines 35-55):
poll until a future finishes, remove it, start the next factory from the
source before touching the result (`StopIteration` past the end is
swallowed), then deliver the result via `step_result`. -/
def first_to_finish {V : Type} (fs : List (Fut V)) (pending : List (Op V))
    (ignore : IgnoreArg) (h : fs ≠ []) : List Nat × StepRes V :=
  ((poll_rounds fs h).1,
    step_result (poll_rounds fs h).2.1 (poll_rounds fs h).2.2 pending ignore)

theorem step_result_ok {V : Type} {f : Fut V} {w : V}
    (hout : f.outcome = .ok w) (rest : List (Fut V)) (pending : List (Op V))
    (ignore : IgnoreArg) :
    step_result f rest pending ignore =
      .yielded (some w) none (backfill rest pending).1 (backfill rest pending).2 := by
  unfold step_result
  rw [hout]

theorem step_result_ignored {V : Type} {f : Fut V} {e : PyExc}
    (hout : f.outcome = .error e) {ignore : IgnoreArg}
    (hig : should_ignore_exception e ignore = true)
    (rest : List (Fut V)) (pending : List (Op V)) :
    step_result f rest pending ignore =
      .yielded none (some e) (backfill rest pending).1 (backfill rest pending).2 := by
  unfold step_result
  rw [hout]
  simp [hig]

theorem step_result_raise {V : Type} {f : Fut V} {e : PyExc}
    (hout : f.outcome = .error e) {ignore : IgnoreArg}
    (hig : should_ignore_exception e ignore = false)
    (rest : List (Fut V)) (pending : List (Op V)) :
    step_result f rest pending ignore =
      .errored e (backfill rest pending).1 (backfill rest pending).2 := by
  unfold step_result
  rw [hout]
  simp [hig]

/-- State of a future that polling leaves untouched: its outcome and its
`cancelled` flag (`advance` only consumes rounds). -/
def futCore {V : Type} (f : Fut V) : Except PyExc V × Bool := (f.outcome, f.cancelled)

theorem advance_map_core {V : Type} (fs : List (Fut V)) :
    (advance fs).map futCore = fs.map futCore := by
  induction fs with
  | nil => rfl
  | cons f fs ih => exact congrArg₂ List.cons rfl ih

theorem extractDone_perm {V : Type} :
    ∀ {fs : List (Fut V)} {f : Fut V} {rest : List (Fut V)},
      extractDone fs = some (f, rest) → fs.Perm (f :: rest) := by
  intro fs
  induction fs with
  | nil => intro f rest h; simp [extractDone] at h
  | cons g gs ih =>
    intro f rest h
    by_cases hg : g.ticks = 0
    · simp [extractDone, hg] at h
      rcases h with ⟨h1, h2⟩
      subst h1; subst h2; exact List.Perm.refl _
    · cases he : extractDone gs with
      | none => simp [extractDone, hg, he] at h
      | some p =>
        rcases p with ⟨g', gs'⟩
        simp [extractDone, hg, he] at h
        rcases h with ⟨h1, h2⟩
        subst h1; subst h2
        exact ((ih he).cons g).trans (List.Perm.swap _ _ _)

theorem poll_rounds_spec_aux {V : Type} :
    ∀ (n : Nat) (fs : List (Fut V)) (h : fs ≠ []), totalTicks fs ≤ n →
      (fs.map futCore).Perm
          (futCore (poll_rounds fs h).2.1 :: ((poll_rounds fs h).2.2).map futCore) ∧
        ∀ c ∈ (poll_rounds fs h).1, c = fs.length := by
  intro n
  induction n using Nat.strong_induction_on with
  | _ n ih =>
    intro fs h hn
    rw [poll_rounds]
    split
    · rename_i fr heq
      rcases fr with ⟨f, rest⟩
      constructor
      · have hp := (extractDone_perm heq).map futCore
        rw [advance_map_core] at hp
        simpa using hp
      · intro c hc
        simp only [List.mem_singleton] at hc
        simp [hc, advance_length]
    · rename_i heq
      have hlt : totalTicks (advance fs) < totalTicks fs :=
        totalTicks_advance_lt h (extractDone_eq_none heq)
      have hrec := ih (totalTicks (advance fs)) (lt_of_lt_of_le hlt hn)
        (advance fs) (advance_ne_nil h) le_rfl
      rcases hpr : poll_rounds (advance fs) (advance_ne_nil h) with ⟨cs, f, rest⟩
      rw [hpr] at hrec
      rcases hrec with ⟨h1, h2⟩
      rw [advance_map_core] at h1
      refine ⟨h1, ?_⟩
      intro c hc
      simp only [List.mem_cons] at hc
      rcases hc with hc | hc
      · simp [hc, advance_length]
      · have := h2 c hc
        rwa [advance_length] at this

theorem poll_rounds_spec {V : Type} (fs : List (Fut V)) (h : fs ≠ []) :
    (fs.map futCore).Perm
        (futCore (poll_rounds fs h).2.1 :: ((poll_rounds fs h).2.2).map futCore) ∧
      ∀ c ∈ (poll_rounds fs h).1, c = fs.length :=
  poll_rounds_spec_aux (totalTicks fs) fs h le_rfl

theorem backfill_fst_length {V : Type} (rest : List (Fut V)) (pending : List (Op V)) :
    (backfill rest pending).1.length = rest.length + min 1 pending.length := by
  cases pending <;> simp [backfill]

theorem backfill_snd_length {V : Type} (rest : List (Fut V)) (pending : List (Op V)) :
    (backfill rest pending).2.length + min 1 pending.length = pending.length := by
  cases pending <;> simp [backfill]

theorem first_to_finish_yield_state {V : Type} {fs : List (Fut V)}
    {pending : List (Op V)} {ignore : IgnoreArg} {h : fs ≠ []} {cs : List Nat}
    {v : Option V} {lg : Option PyExc} {fs' : List (Fut V)} {pending' : List (Op V)}
    (h2 : first_to_finish fs pending ignore h = (cs, .yielded v lg fs' pending')) :
    ∃ f rest, (fs.map futCore).Perm (futCore f :: rest.map futCore) ∧
      fs' = (backfill rest pending).1 ∧ pending' = (backfill rest pending).2 ∧
      ((∃ w, f.outcome = .ok w ∧ v = some w ∧ lg = none) ∨
        (∃ e, f.outcome = .error e ∧ should_ignore_exception e ignore = true ∧
          v = none ∧ lg = some e)) := by
  rcases hp : poll_rounds fs h with ⟨cs0, f, rest⟩
  have hperm := (poll_rounds_spec fs h).1
  rw [hp] at hperm
  refine ⟨f, rest, by simpa using hperm, ?_⟩
  have hsnd : (first_to_finish fs pending ignore h).2 = .yielded v lg fs' pending' := by
    rw [h2]
  unfold first_to_finish at hsnd
  rw [hp] at hsnd
  simp only at hsnd
  cases ho : f.outcome with
  | ok w =>
    rw [step_result_ok ho] at hsnd
    simp only [StepRes.yielded.injEq] at hsnd
    exact ⟨hsnd.2.2.1.symm, hsnd.2.2.2.symm, Or.inl ⟨w, rfl, hsnd.1.symm, hsnd.2.1.symm⟩⟩
  | error e =>
    by_cases hig : should_ignore_exception e ignore
    · rw [step_result_ignored ho hig] at hsnd
      simp only [StepRes.yielded.injEq] at hsnd
      exact ⟨hsnd.2.2.1.symm, hsnd.2.2.2.symm,
        Or.inr ⟨e, rfl, hig, hsnd.1.symm, hsnd.2.1.symm⟩⟩
    · rw [step_result_raise ho (by simpa using hig)] at hsnd
      exact absurd hsnd (by simp)

theorem first_to_finish_error_state {V : Type} {fs : List (Fut V)}
    {pending : List (Op V)} {ignore : IgnoreArg} {h : fs ≠ []} {cs : List Nat}
    {e : PyExc} {rem : List (Fut V)} {pend : List (Op V)}
    (h2 : first_to_finish fs pending ignore h = (cs, .errored e rem pend)) :
    ∃ f rest, (fs.map futCore).Perm (futCore f :: rest.map futCore) ∧
      f.outcome = .error e ∧ should_ignore_exception e ignore = false ∧
      rem = (backfill rest pending).1 ∧ pend = (backfill rest pending).2 := by
  rcases hp : poll_rounds fs h with ⟨cs0, f, rest⟩
  have hperm := (poll_rounds_spec fs h).1
  rw [hp] at hperm
  refine ⟨f, rest, by simpa using hperm, ?_⟩
  have hsnd : (first_to_finish fs pending ignore h).2 = .errored e rem pend := by
    rw [h2]
  unfold first_to_finish at hsnd
  rw [hp] at hsnd
  simp only at hsnd
  cases ho : f.outcome with
  | ok w =>
    rw [step_result_ok ho] at hsnd
    exact absurd hsnd (by simp)
  | error e' =>
    by_cases hig : should_ignore_exception e' ignore
    · rw [step_result_ignored ho hig] at hsnd
      exact absurd hsnd (by simp)
    · rw [step_result_raise ho (by simpa using hig)] at hsnd
      simp only [StepRes.errored.injEq] at hsnd
      refine ⟨congrArg Except.error hsnd.1, ?_, hsnd.2.1.symm, hsnd.2.2.symm⟩
      rw [← hsnd.1]
      simpa using hig

theorem first_to_finish_counts {V : Type} {fs : List (Fut V)}
    {pending : List (Op V)} {ignore : IgnoreArg} {h : fs ≠ []} :
    ∀ c ∈ (first_to_finish fs pending ignore h).1, c = fs.length := by
  intro c hc
  unfold first_to_finish at hc
  exact (poll_rounds_spec fs h).2 c hc

theorem first_to_finish_yield_sizes {V : Type} {fs : List (Fut V)}
    {pending : List (Op V)} {ignore : IgnoreArg} {h : fs ≠ []} {cs : List Nat}
    {v : Option V} {lg : Option PyExc} {fs' : List (Fut V)} {pending' : List (Op V)}
    (h2 : first_to_finish fs pending ignore h = (cs, .yielded v lg fs' pending')) :
    fs'.length + pending'.length + 1 = fs.length + pending.length := by
  rcases first_to_finish_yield_state h2 with ⟨f, rest, hperm, hfs, hpend, _⟩
  have hlen : fs.length = rest.length + 1 := by
    have := hperm.length_eq
    simpa using this
  have hb1 := backfill_fst_length rest pending
  have hb2 := backfill_snd_length rest pending
  rw [hfs, hpend]
  omega

/-- Observable outcome of a whole `limited_as_completed` run: the yielded
values in order (`none` is the `None` yielded for an ignored failure), the
propagated error with the attached remaining futures (if any), the
in-flight count observed at every scheduler round, the number of
operations started so far sampled at each yield instant, the logged
ignored exceptions, and the source operations never started. -/
structure RunOut (V : Type) where
  yields : List (Option V)
  error : Option (PyExc × List (Fut V))
  counts : List Nat
  startCounts : List Nat
  logged : List PyExc
  leftover : List (Op V)
deriving Repr

/-- The generator's outer `while futures: yield await first_to_finish()`
loop.  `started` is ghost instrumentation counting the operations started
so far. -/
theorem ne_nil_of_not_isEmpty {α : Type} {l : List α} (h : ¬ l.isEmpty = true) :
    l ≠ [] := fun he => h (by simp [he])

/-- Prepend an optional element (the logging of an ignored exception). -/
def consOpt {α : Type} : Option α → List α → List α
  | some a, l => a :: l
  | none, l => l

def lac_loop {V : Type} (fs : List (Fut V)) (pending : List (Op V))
    (ignore : IgnoreArg) (started : Nat) : RunOut V :=
  if hemp : fs.isEmpty then ⟨[], none, [], [], [], pending⟩
  else
    match h2 : first_to_finish fs pending ignore (ne_nil_of_not_isEmpty hemp) with
    | (cs, .errored e rem pend) => ⟨[], some (e, rem), cs, [], [], pend⟩
    | (cs, .yielded v lg fs' pending') =>
      let started' := started + min 1 pending.length
      let r := lac_loop fs' pending' ignore started'
      ⟨v :: r.yields, r.error, cs ++ r.counts, started' :: r.startCounts,
        consOpt lg r.logged, r.leftover⟩
termination_by fs.length + pending.length
decreasing_by
  have hs := first_to_finish_yield_sizes h2
  omega

theorem lac_loop_eq_nil {V : Type} (pending : List (Op V)) (ignore : IgnoreArg)
    (started : Nat) :
    lac_loop ([] : List (Fut V)) pending ignore started =
      ⟨[], none, [], [], [], pending⟩ := by
  rw [lac_loop]
  rfl

theorem lac_loop_eq_error {V : Type} {fs : List (Fut V)} {pending : List (Op V)}
    {ignore : IgnoreArg} {cs : List Nat} {e : PyExc} {rem : List (Fut V)}
    {pend : List (Op V)} (started : Nat) (h : fs ≠ [])
    (h2 : first_to_finish fs pending ignore h = (cs, .errored e rem pend)) :
    lac_loop fs pending ignore started = ⟨[], some (e, rem), cs, [], [], pend⟩ := by
  have hnot : ¬ fs.isEmpty = true := by
    cases fs with
    | nil => exact absurd rfl h
    | cons a l => simp [List.isEmpty]
  have hgen : ∀ (hh : fs ≠ []),
      first_to_finish fs pending ignore hh = first_to_finish fs pending ignore h :=
    fun _ => rfl
  rw [lac_loop, dif_neg hnot]
  split
  · rename_i heq
    rw [hgen, h2] at heq
    injection heq with hcs hres
    injection hres with he hrem hpend
    subst hcs; subst he; subst hrem; subst hpend
    rfl
  · rename_i heq
    rw [hgen, h2] at heq
    exact absurd (congrArg Prod.snd heq) (by simp)

theorem lac_loop_eq_yield {V : Type} {fs : List (Fut V)} {pending : List (Op V)}
    {ignore : IgnoreArg} {cs : List Nat} {v : Option V} {lg : Option PyExc}
    {fs' : List (Fut V)} {pending' : List (Op V)} (started : Nat) (h : fs ≠ [])
    (h2 : first_to_finish fs pending ignore h = (cs, .yielded v lg fs' pending')) :
    lac_loop fs pending ignore started =
      { yields := v :: (lac_loop fs' pending' ignore
            (started + min 1 pending.length)).yields,
        error := (lac_loop fs' pending' ignore
            (started + min 1 pending.length)).error,
        counts := cs ++ (lac_loop fs' pending' ignore
            (started + min 1 pending.length)).counts,
        startCounts := (started + min 1 pending.length) ::
          (lac_loop fs' pending' ignore (started + min 1 pending.length)).startCounts,
        logged := consOpt lg (lac_loop fs' pending' ignore
            (started + min 1 pending.length)).logged,
        leftover := (lac_loop fs' pending' ignore
            (started + min 1 pending.length)).leftover } := by
  have hnot : ¬ fs.isEmpty = true := by
    cases fs with
    | nil => exact absurd rfl h
    | cons a l => simp [List.isEmpty]
  have hgen : ∀ (hh : fs ≠ []),
      first_to_finish fs pending ignore hh = first_to_finish fs pending ignore h :=
    fun _ => rfl
  rw [lac_loop, dif_neg hnot]
  split
  · rename_i heq
    rw [hgen, h2] at heq
    exact absurd (congrArg Prod.snd heq) (by simp)
  · rename_i heq
    rw [hgen, h2] at heq
    injection heq with hcs hres
    injection hres with hv hlg hfs hpend
    subst hcs; subst hv; subst hlg; subst hfs; subst hpend
    rfl

/-- Model of `limited_as_completed` (src/spfy/asynch/__init__.py lines
22-58): start the first `limit` operations (`islice(coros, 0, limit)`),
keep the rest as the source iterator, and run the generator loop.  The
older variant in src/spfy/async/__init__.py is the same generator without
the exception handling; it coincides with `ignore = boolFalse` on runs
whose operations do not raise. -/
def limited_as_completed {V : Type} (ops : List (Op V)) (limit : Nat)
    (ignore : IgnoreArg) : RunOut V :=
  lac_loop ((ops.take limit).map ensure_future) (ops.drop limit) ignore
    (ops.take limit).length

/-- An outcome that cannot propagate out of the Limiter: either a value,
or an exception matched by the ignore policy. -/
def okOrIgnored {V : Type} (ignore : IgnoreArg) (o : Except PyExc V) : Prop :=
  ∀ e, o = .error e → should_ignore_exception e ignore = true

/-- Number of exception outcomes in a list of outcomes. -/
def errCount {V : Type} (os : List (Except PyExc V)) : Nat :=
  os.countP (fun o => !o.isOk)

/-! ### Page Walker `all` (src/spfy/result.py and src/spfy/async/result.py)

The synchronous `all` derives the parameter sets, returns `[]` when there
are none, and otherwise chains the items of the pages fetched for each
parameter set — `ThreadPoolExecutor.map` returns results in argument
order, and the initial page's own items are not part of the output.  The
asynchronous `all` collects `iterall`, whose `SpotifyResultIterator`
first drains `iter(result)` — the initial page's own items — and then
drains the pages delivered by `limited_as_completed` over the same
requests with `config.http.concurrent_connections` as the bound.  The
network fetch is abstracted as an oracle from a parameter set to the
fetched page's item list; `ticks` assigns each request its completion
rounds. -/

def all_sync (page : Page) (fetch : NextParams → List Nat)
    (limitArg : Option Nat) : List Nat :=
  let ps := get_next_params_list page limitArg
  if ps.isEmpty then [] else (ps.map fetch).flatten

/-- The generator of request operations fed to `limited_as_completed` by
`SpotifyResultIterator`: one fetch per derived parameter set. -/
def pageOps (ps : List NextParams) (fetch : NextParams → List Nat)
    (ticks : Nat → Nat) : List (Op (List Nat)) :=
  ps.enum.map (fun ip => ⟨ticks ip.1, Except.ok (fetch ip.2)⟩)

def all_asynch (page : Page) (fetch : NextParams → List Nat)
    (limitArg : Option Nat) (ticks : Nat → Nat) (conc : Nat) : List Nat :=
  page.items ++
    ((limited_as_completed (pageOps (get_next_params_list page limitArg) fetch ticks)
        conc .boolFalse).yields.filterMap id).flatten

/-- Concrete page for the C9 counterexample: two items of its own and no
`next` URL. -/
def pageNoNext : Page :=
  ⟨none, some "https://api.spotify.com/v1/me/tracks?offset=0&limit=2",
   [("offset", "0"), ("limit", "2")], 2, [7, 8]⟩

/-! ### Derived facts about one Limiter step -/

theorem core_perm_outcomes {V : Type} {fs rest : List (Fut V)} {f : Fut V}
    (hperm : (fs.map futCore).Perm (futCore f :: rest.map futCore)) :
    (fs.map (·.outcome)).Perm (f.outcome :: rest.map (·.outcome)) := by
  have h := hperm.map Prod.fst
  simpa [List.map_map, Function.comp, futCore] using h

theorem core_perm_cancelled {V : Type} {fs rest : List (Fut V)} {f : Fut V}
    (hperm : (fs.map futCore).Perm (futCore f :: rest.map futCore)) :
    (fs.map (·.cancelled)).Perm (f.cancelled :: rest.map (·.cancelled)) := by
  have h := hperm.map Prod.snd
  simpa [List.map_map, Function.comp, futCore] using h

theorem first_to_finish_yield_fs_le {V : Type} {fs : List (Fut V)}
    {pending : List (Op V)} {ignore : IgnoreArg} {h : fs ≠ []} {cs : List Nat}
    {v : Option V} {lg : Option PyExc} {fs' : List (Fut V)} {pending' : List (Op V)}
    (h2 : first_to_finish fs pending ignore h = (cs, .yielded v lg fs' pending')) :
    fs'.length ≤ fs.length := by
  rcases first_to_finish_yield_state h2 with ⟨f, rest, hperm, hfs, _, _⟩
  have hlen : fs.length = rest.length + 1 := by simpa using hperm.length_eq
  rw [hfs, backfill_fst_length]
  omega

/-! ### Global invariants of a Limiter run -/

theorem lac_loop_counts_le {V : Type} :
    ∀ (n : Nat) (fs : List (Fut V)) (pending : List (Op V)) (ignore : IgnoreArg)
      (started L : Nat), fs.length + pending.length ≤ n → fs.length ≤ L →
      ∀ c ∈ (lac_loop fs pending ignore started).counts, c ≤ L := by
  intro n
  induction n with
  | zero =>
    intro fs pending ignore started L hn hL c hc
    have hfs : fs = [] := by
      cases fs with
      | nil => rfl
      | cons a l => simp at hn
    subst hfs
    rw [lac_loop_eq_nil] at hc
    simp at hc
  | succ n ih =>
    intro fs pending ignore started L hn hL c hc
    by_cases hfs : fs = []
    · subst hfs
      rw [lac_loop_eq_nil] at hc
      simp at hc
    · rcases h2 : first_to_finish fs pending ignore hfs with ⟨cs, res⟩
      have hcs : ∀ x ∈ cs, x = fs.length := by
        have hall := @first_to_finish_counts V fs pending ignore hfs
        rw [h2] at hall
        exact hall
      cases res with
      | errored e rem pend =>
        rw [lac_loop_eq_error started hfs h2] at hc
        simp only at hc
        have := hcs c hc
        omega
      | yielded v lg fs' pending' =>
        rw [lac_loop_eq_yield started hfs h2] at hc
        simp only at hc
        rcases List.mem_append.mp hc with hc | hc
        · have := hcs c hc
          omega
        · have hsz := first_to_finish_yield_sizes h2
          have hle := first_to_finish_yield_fs_le h2
          exact ih fs' pending' ignore (started + min 1 pending.length) L
            (by omega) (by omega) c hc

theorem lac_loop_startCounts_spec {V : Type} :
    ∀ (n : Nat) (fs : List (Fut V)) (pending : List (Op V)) (ignore : IgnoreArg)
      (started : Nat), fs.length + pending.length ≤ n →
      ∀ i, i < (lac_loop fs pending ignore started).startCounts.length →
        (lac_loop fs pending ignore started).startCounts.get? i =
          some (min (started + i + 1) (started + pending.length)) := by
  intro n
  induction n with
  | zero =>
    intro fs pending ignore started hn i hi
    have hfs : fs = [] := by
      cases fs with
      | nil => rfl
      | cons a l => simp at hn
    subst hfs
    rw [lac_loop_eq_nil] at hi
    simp at hi
  | succ n ih =>
    intro fs pending ignore started hn i hi
    by_cases hfs : fs = []
    · subst hfs
      rw [lac_loop_eq_nil] at hi
      simp at hi
    · rcases h2 : first_to_finish fs pending ignore hfs with ⟨cs, res⟩
      cases res with
      | errored e rem pend =>
        rw [lac_loop_eq_error started hfs h2] at hi
        simp at hi
      | yielded v lg fs' pending' =>
        have hsz := first_to_finish_yield_sizes h2
        have hpl : pending'.length + min 1 pending.length = pending.length := by
          rcases first_to_finish_yield_state h2 with ⟨f, rest, hperm, hfs2, hpend2, _⟩
          rw [hpend2]
          exact backfill_snd_length rest pending
        rw [lac_loop_eq_yield started hfs h2] at hi ⊢
        simp only at hi ⊢
        cases i with
        | zero =>
          simp only [List.get?_cons_zero, Option.some.injEq]
          omega
        | succ j =>
          have hj : j < (lac_loop fs' pending' ignore
              (started + min 1 pending.length)).startCounts.length := by
            simpa using hi
          have hrec := ih fs' pending' ignore (started + min 1 pending.length)
            (by omega) j hj
          simp only [List.get?_cons_succ]
          rw [hrec]
          congr 1
          omega

theorem lac_loop_startCounts_length {V : Type} :
    ∀ (n : Nat) (fs : List (Fut V)) (pending : List (Op V)) (ignore : IgnoreArg)
      (started : Nat), fs.length + pending.length ≤ n →
      (lac_loop fs pending ignore started).startCounts.length =
        (lac_loop fs pending ignore started).yields.length := by
  intro n
  induction n with
  | zero =>
    intro fs pending ignore started hn
    have hfs : fs = [] := by
      cases fs with
      | nil => rfl
      | cons a l => simp at hn
    subst hfs
    rw [lac_loop_eq_nil]
    rfl
  | succ n ih =>
    intro fs pending ignore started hn
    by_cases hfs : fs = []
    · subst hfs
      rw [lac_loop_eq_nil]
      rfl
    · rcases h2 : first_to_finish fs pending ignore hfs with ⟨cs, res⟩
      cases res with
      | errored e rem pend =>
        rw [lac_loop_eq_error started hfs h2]
        rfl
      | yielded v lg fs' pending' =>
        have hsz := first_to_finish_yield_sizes h2
        rw [lac_loop_eq_yield started hfs h2]
        simp only [List.length_cons]
        rw [ih fs' pending' ignore (started + min 1 pending.length) (by omega)]

theorem lac_loop_ok_run {V : Type} :
    ∀ (n : Nat) (fs : List (Fut V)) (pending : List (Op V)) (ignore : IgnoreArg)
      (started : Nat), fs.length + pending.length ≤ n →
      (∀ f ∈ fs, okOrIgnored ignore f.outcome) →
      (∀ p ∈ pending, okOrIgnored ignore p.outcome) →
      (fs = [] → pending = []) →
      (lac_loop fs pending ignore started).error = none ∧
        (lac_loop fs pending ignore started).yields.length =
          fs.length + pending.length ∧
        (lac_loop fs pending ignore started).leftover = [] ∧
        (lac_loop fs pending ignore started).yields.countP (fun v => v.isNone) =
          errCount (fs.map (·.outcome)) + errCount (pending.map (·.outcome)) ∧
        (lac_loop fs pending ignore started).logged.length =
          errCount (fs.map (·.outcome)) + errCount (pending.map (·.outcome)) := by
  intro n
  induction n with
  | zero =>
    intro fs pending ignore started hn hfsI hpI hne
    have hfs : fs = [] := by
      cases fs with
      | nil => rfl
      | cons a l => simp at hn
    subst hfs
    have hp : pending = [] := hne rfl
    subst hp
    rw [lac_loop_eq_nil]
    simp [errCount]
  | succ n ih =>
    intro fs pending ignore started hn hfsI hpI hne
    by_cases hfs : fs = []
    · subst hfs
      have hp : pending = [] := hne rfl
      subst hp
      rw [lac_loop_eq_nil]
      simp [errCount]
    · rcases h2 : first_to_finish fs pending ignore hfs with ⟨cs, res⟩
      cases res with
      | errored e rem pend =>
        rcases first_to_finish_error_state h2 with ⟨f, rest, hperm, hout, hnig, _, _⟩
        have hpermo := core_perm_outcomes hperm
        have hmem : f.outcome ∈ fs.map (·.outcome) :=
          hpermo.symm.subset (List.mem_cons_self _ _)
        rcases List.mem_map.mp hmem with ⟨f0, hf0, hfo⟩
        have htrue := hfsI f0 hf0 e (by rw [hfo, hout])
        rw [htrue] at hnig
        cases hnig
      | yielded v lg fs' pending' =>
        rcases first_to_finish_yield_state h2 with ⟨f, rest, hperm, hfseq, hpendeq, hcase⟩
        have hpermo := core_perm_outcomes hperm
        have hlen : fs.length = rest.length + 1 := by simpa using hperm.length_eq
        have hsz := first_to_finish_yield_sizes h2
        have hrestI : ∀ g ∈ rest, okOrIgnored ignore g.outcome := by
          intro g hg
          have hmem : g.outcome ∈ fs.map (·.outcome) := by
            refine hpermo.symm.subset ?_
            exact List.mem_cons_of_mem _ (List.mem_map.mpr ⟨g, hg, rfl⟩)
          rcases List.mem_map.mp hmem with ⟨f0, hf0, hfo⟩
          intro e he
          exact hfsI f0 hf0 e (by rw [hfo, he])
        have hfs'I : ∀ g ∈ fs', okOrIgnored ignore g.outcome := by
          rw [hfseq]
          cases pending with
          | nil => simpa [backfill] using hrestI
          | cons p ps =>
            intro g hg
            simp only [backfill, List.mem_append, List.mem_singleton] at hg
            rcases hg with hg | hg
            · exact hrestI g hg
            · rw [hg]
              intro e he
              exact hpI p (by simp) e (by simpa [ensure_future] using he)
        have hpend'I : ∀ q ∈ pending', okOrIgnored ignore q.outcome := by
          rw [hpendeq]
          cases pending with
          | nil => simp [backfill]
          | cons p ps =>
            intro q hq
            simp only [backfill] at hq
            exact hpI q (List.mem_cons_of_mem _ hq)
        have hne' : fs' = [] → pending' = [] := by
          intro hfse
          cases pending with
          | nil => rw [hpendeq]; rfl
          | cons p ps =>
            rw [hfseq] at hfse
            simp [backfill] at hfse
        have hrec := ih fs' pending' ignore (started + min 1 pending.length)
          (by omega) hfs'I hpend'I hne'
        rcases hrec with ⟨hrecE, hrecY, hrecL, hrecC, hrecG⟩
        have hcf : errCount (fs.map (·.outcome)) =
            errCount (rest.map (·.outcome)) +
              (if !(f.outcome).isOk then 1 else 0) := by
          have hcp := hpermo.countP_eq (fun o => !o.isOk)
          rw [List.countP_cons] at hcp
          simpa [errCount, Nat.add_comm] using hcp
        have hsum : errCount (fs'.map (·.outcome)) + errCount (pending'.map (·.outcome)) +
            (if !(f.outcome).isOk then 1 else 0) =
            errCount (fs.map (·.outcome)) + errCount (pending.map (·.outcome)) := by
          cases pending with
          | nil =>
            simp only [backfill] at hfseq hpendeq
            rw [hfseq, hpendeq, hcf]
            simp only [List.map_nil, errCount, List.countP_nil]
            omega
          | cons p ps =>
            simp only [backfill] at hfseq hpendeq
            rw [hfseq, hpendeq, hcf]
            have hmapp : (rest ++ [ensure_future p]).map (·.outcome) =
                rest.map (·.outcome) ++ [p.outcome] := by
              simp [ensure_future]
            rw [hmapp]
            simp only [errCount, List.countP_append, List.map_cons, List.countP_cons,
              List.countP_nil]
            omega
        rw [lac_loop_eq_yield started hfs h2]
        simp only
        refine ⟨hrecE, ?_, hrecL, ?_, ?_⟩
        · simp only [List.length_cons]
          omega
        · rcases hcase with ⟨w, hw, hv, hlg⟩ | ⟨e, he, hig, hv, hlg⟩
          · subst hv
            have hcnt : List.countP (fun v : Option V => v.isNone)
                (some w :: (lac_loop fs' pending' ignore
                  (started + min 1 pending.length)).yields) =
                List.countP (fun v : Option V => v.isNone)
                  (lac_loop fs' pending' ignore
                    (started + min 1 pending.length)).yields := by
              simp
            rw [hcnt, hrecC]
            have hz : (if !(f.outcome).isOk then 1 else 0) = 0 := by
              rw [hw]
              rfl
            omega
          · subst hv
            have hcnt : List.countP (fun v : Option V => v.isNone)
                ((none : Option V) :: (lac_loop fs' pending' ignore
                  (started + min 1 pending.length)).yields) =
                List.countP (fun v : Option V => v.isNone)
                  (lac_loop fs' pending' ignore
                    (started + min 1 pending.length)).yields + 1 := by
              simp
            rw [hcnt, hrecC]
            have ho : (if !(f.outcome).isOk then 1 else 0) = 1 := by
              rw [he]
              rfl
            omega
        · rcases hcase with ⟨w, hw, hv, hlg⟩ | ⟨e, he, hig, hv, hlg⟩
          · subst hlg
            have hcl : consOpt (none : Option PyExc)
                (lac_loop fs' pending' ignore
                  (started + min 1 pending.length)).logged =
                (lac_loop fs' pending' ignore
                  (started + min 1 pending.length)).logged := rfl
            rw [hcl, hrecG]
            have hz : (if !(f.outcome).isOk then 1 else 0) = 0 := by
              rw [hw]
              rfl
            omega
          · subst hlg
            have hcl : consOpt (some e)
                (lac_loop fs' pending' ignore
                  (started + min 1 pending.length)).logged =
                e :: (lac_loop fs' pending' ignore
                  (started + min 1 pending.length)).logged := rfl
            rw [hcl]
            simp only [List.length_cons]
            rw [hrecG]
            have ho : (if !(f.outcome).isOk then 1 else 0) = 1 := by
              rw [he]
              rfl
            omega

theorem lac_loop_error_run {V : Type} :
    ∀ (n : Nat) (fs : List (Fut V)) (pending : List (Op V)) (ignore : IgnoreArg)
      (started : Nat) (e : PyExc) (rem : List (Fut V)),
      fs.length + pending.length ≤ n →
      (∀ f ∈ fs, f.cancelled = false) →
      (lac_loop fs pending ignore started).error = some (e, rem) →
      (lac_loop fs pending ignore started).yields.length + 1 + rem.length +
          (lac_loop fs pending ignore started).leftover.length =
        fs.length + pending.length ∧
      ∀ g ∈ rem, g.cancelled = false := by
  intro n
  induction n with
  | zero =>
    intro fs pending ignore started e rem hn hC herr
    have hfs : fs = [] := by
      cases fs with
      | nil => rfl
      | cons a l => simp at hn
    subst hfs
    rw [lac_loop_eq_nil] at herr
    simp at herr
  | succ n ih =>
    intro fs pending ignore started e rem hn hC herr
    by_cases hfs : fs = []
    · subst hfs
      rw [lac_loop_eq_nil] at herr
      simp at herr
    · rcases h2 : first_to_finish fs pending ignore hfs with ⟨cs, res⟩
      cases res with
      | errored e0 rem0 pend0 =>
        rw [lac_loop_eq_error started hfs h2] at herr ⊢
        simp only [Option.some.injEq, Prod.mk.injEq] at herr
        rcases first_to_finish_error_state h2 with
          ⟨f, rest, hperm, hout, hnig, hremEq, hpendEq⟩
        have hlen : fs.length = rest.length + 1 := by simpa using hperm.length_eq
        have hrestC : ∀ g ∈ rest, g.cancelled = false := by
          intro g hg
          have hpermc := core_perm_cancelled hperm
          have hmem : g.cancelled ∈ fs.map (·.cancelled) := by
            refine hpermc.symm.subset ?_
            exact List.mem_cons_of_mem _ (List.mem_map.mpr ⟨g, hg, rfl⟩)
          rcases List.mem_map.mp hmem with ⟨f0, hf0, hfo⟩
          rw [← hfo]
          exact hC f0 hf0
        have hremC : ∀ g ∈ rem0, g.cancelled = false := by
          rw [hremEq]
          cases pending with
          | nil =>
            simpa [backfill] using hrestC
          | cons p ps =>
            intro g hg
            simp only [backfill, List.mem_append, List.mem_singleton] at hg
            rcases hg with hg | hg
            · exact hrestC g hg
            · rw [hg]
              rfl
        have hb1 := backfill_fst_length rest pending
        have hb2 := backfill_snd_length rest pending
        rw [← hremEq] at hb1
        rw [← hpendEq] at hb2
        simp only
        constructor
        · rw [← herr.2]
          simp only [List.length_nil]
          omega
        · intro g hg
          rw [← herr.2] at hg
          exact hremC g hg
      | yielded v lg fs' pending' =>
        rcases first_to_finish_yield_state h2 with ⟨f, rest, hperm, hfseq, hpendeq, _⟩
        have hlen : fs.length = rest.length + 1 := by simpa using hperm.length_eq
        have hsz := first_to_finish_yield_sizes h2
        have hrestC : ∀ g ∈ rest, g.cancelled = false := by
          intro g hg
          have hpermc := core_perm_cancelled hperm
          have hmem : g.cancelled ∈ fs.map (·.cancelled) := by
            refine hpermc.symm.subset ?_
            exact List.mem_cons_of_mem _ (List.mem_map.mpr ⟨g, hg, rfl⟩)
          rcases List.mem_map.mp hmem with ⟨f0, hf0, hfo⟩
          rw [← hfo]
          exact hC f0 hf0
        have hfs'C : ∀ g ∈ fs', g.cancelled = false := by
          rw [hfseq]
          cases pending with
          | nil => simpa [backfill] using hrestC
          | cons p ps =>
            intro g hg
            simp only [backfill, List.mem_append, List.mem_singleton] at hg
            rcases hg with hg | hg
            · exact hrestC g hg
            · rw [hg]
              rfl
        rw [lac_loop_eq_yield started hfs h2] at herr ⊢
        simp only at herr ⊢
        have hrec := ih fs' pending' ignore (started + min 1 pending.length) e rem
          (by omega) hfs'C herr
        rcases hrec with ⟨hrec1, hrec2⟩
        refine ⟨?_, hrec2⟩
        simp only [List.length_cons]
        omega

/-! ### Runs whose operations all complete immediately (used to compare the
synchronous and asynchronous Page Walkers): completion order coincides
with submission order. -/

theorem advance_zero {V : Type} {fs : List (Fut V)} (hz : ∀ f ∈ fs, f.ticks = 0) :
    advance fs = fs := by
  induction fs with
  | nil => rfl
  | cons f l ih =>
    have hstep : advance (f :: l) = { f with ticks := f.ticks - 1 } :: advance l := rfl
    rw [hstep, ih (fun g hg => hz g (List.mem_cons_of_mem f hg))]
    have hf := hz f (List.mem_cons_self f l)
    cases f with
    | mk t o c =>
      simp only at hf
      subst hf
      rfl

theorem poll_rounds_zero {V : Type} {f : Fut V} {rest : List (Fut V)}
    (hz : ∀ g ∈ f :: rest, g.ticks = 0) (h : (f :: rest : List (Fut V)) ≠ []) :
    poll_rounds (f :: rest) h = ([rest.length + 1], (f, rest)) := by
  have hadv : advance (f :: rest) = f :: rest := advance_zero hz
  have hext : extractDone (f :: rest) = some (f, rest) := by
    simp [extractDone, hz f (List.mem_cons_self f rest)]
  rw [poll_rounds]
  split
  · rename_i fr heq
    rw [hadv, hext] at heq
    injection heq with heq2
    subst heq2
    rw [hadv]
    simp
  · rename_i heq
    rw [hadv, hext] at heq
    cases heq

theorem lac_loop_inorder {V : Type} :
    ∀ (n : Nat) (fs : List (Fut V)) (pending : List (Op V)) (ignore : IgnoreArg)
      (started : Nat), fs.length + pending.length ≤ n →
      (∀ f ∈ fs, f.ticks = 0) → (∀ p ∈ pending, p.ticks = 0) →
      (∀ f ∈ fs, (f.outcome).isOk = true) →
      (∀ p ∈ pending, (p.outcome).isOk = true) →
      (fs = [] → pending = []) →
      (lac_loop fs pending ignore started).yields =
        fs.map (fun f => f.outcome.toOption) ++
          pending.map (fun p => p.outcome.toOption) := by
  intro n
  induction n with
  | zero =>
    intro fs pending ignore started hn hzf hzp hof hop hne
    have hfs : fs = [] := by
      cases fs with
      | nil => rfl
      | cons a l => simp at hn
    subst hfs
    have hp : pending = [] := hne rfl
    subst hp
    rw [lac_loop_eq_nil]
    rfl
  | succ n ih =>
    intro fs pending ignore started hn hzf hzp hof hop hne
    cases fs with
    | nil =>
      have hp : pending = [] := hne rfl
      subst hp
      rw [lac_loop_eq_nil]
      rfl
    | cons f rest =>
      have hfs : (f :: rest : List (Fut V)) ≠ [] := by simp
      rcases hw : f.outcome with w | w
      · have hcon := hof f (List.mem_cons_self f rest)
        rw [hw] at hcon
        exact Bool.noConfusion hcon
      · have h2 : first_to_finish (f :: rest) pending ignore hfs =
            ([rest.length + 1],
              .yielded (some w) none (backfill rest pending).1
                (backfill rest pending).2) := by
          unfold first_to_finish
          rw [poll_rounds_zero hzf hfs]
          simp only
          rw [step_result_ok hw]
        rw [lac_loop_eq_yield started hfs h2]
        simp only
        have hzrest : ∀ g ∈ rest, g.ticks = 0 :=
          fun g hg => hzf g (List.mem_cons_of_mem f hg)
        have horest : ∀ g ∈ rest, (g.outcome).isOk = true :=
          fun g hg => hof g (List.mem_cons_of_mem f hg)
        cases pending with
        | nil =>
          have hrec := ih rest [] ignore (started + min 1 ([] : List (Op V)).length)
            (by simp only [List.length_cons, List.length_nil] at hn ⊢; omega)
            hzrest (by simp) horest (by simp) (fun _ => rfl)
          simp only [backfill]
          rw [hrec]
          simp [hw, Except.toOption]
        | cons p ps =>
          have hzfs' : ∀ g ∈ rest ++ [ensure_future p], g.ticks = 0 := by
            intro g hg
            rcases List.mem_append.mp hg with hg | hg
            · exact hzrest g hg
            · rw [List.mem_singleton.mp hg]
              exact hzp p (List.mem_cons_self p ps)
          have hofs' : ∀ g ∈ rest ++ [ensure_future p], (g.outcome).isOk = true := by
            intro g hg
            rcases List.mem_append.mp hg with hg | hg
            · exact horest g hg
            · rw [List.mem_singleton.mp hg]
              exact hop p (List.mem_cons_self p ps)
          have hne' : rest ++ [ensure_future p] = [] → ps = [] := by
            intro hcon
            simp at hcon
          have hrec := ih (rest ++ [ensure_future p]) ps ignore
            (started + min 1 ((p :: ps : List (Op V)).length))
            (by simp only [List.length_cons, List.length_append,
              List.length_nil] at hn ⊢; omega) hzfs'
            (fun q hq => hzp q (List.mem_cons_of_mem p hq)) hofs'
            (fun q hq => hop q (List.mem_cons_of_mem p hq)) hne'
          simp only [backfill]
          rw [hrec]
          simp [hw, ensure_future, Except.toOption]

/-- Closed form of a single-operation run whose operation finishes in the
first round and raises: the failure is either ignored (logged, `None`
yielded) or propagated with no remaining futures. -/
theorem limited_single_error {V : Type} (e : PyExc) (ignore : IgnoreArg) :
    limited_as_completed [(⟨0, Except.error e⟩ : Op V)] 1 ignore =
      (if should_ignore_exception e ignore then ⟨[none], none, [1], [1], [e], []⟩
       else ⟨[], some (e, []), [1], [], [], []⟩ : RunOut V) := by
  have hfs : ([ensure_future (⟨0, Except.error e⟩ : Op V)] : List (Fut V)) ≠ [] := by
    simp
  have hz : ∀ g ∈ [ensure_future (⟨0, Except.error e⟩ : Op V)], g.ticks = 0 := by
    intro g hg
    rw [List.mem_singleton.mp hg]
    rfl
  by_cases hig : should_ignore_exception e ignore = true
  · have h2 : first_to_finish [ensure_future (⟨0, Except.error e⟩ : Op V)] [] ignore hfs =
        ([1], .yielded none (some e) [] []) := by
      unfold first_to_finish
      rw [poll_rounds_zero hz hfs]
      simp only
      rw [step_result_ignored rfl hig]
      rfl
    show lac_loop [ensure_future (⟨0, Except.error e⟩ : Op V)] [] ignore 1 = _
    rw [lac_loop_eq_yield 1 hfs h2, lac_loop_eq_nil, if_pos hig]
    rfl
  · have h2 : first_to_finish [ensure_future (⟨0, Except.error e⟩ : Op V)] [] ignore hfs =
        ([1], .errored e [] []) := by
      unfold first_to_finish
      rw [poll_rounds_zero hz hfs]
      simp only
      rw [step_result_raise rfl (by simpa using hig)]
      rfl
    show lac_loop [ensure_future (⟨0, Except.error e⟩ : Op V)] [] ignore 1 = _
    rw [lac_loop_eq_error 1 hfs h2, if_neg hig]

/-! ### The claims -/

/-- C3: the claim says `retries=2` against an always-202 server with
`checkDeviceBusy` makes exactly 3 attempts and then fails with
DeviceUnavailable.  The code's device-busy recursion omits `check_202`,
which silently resets to `False`, so the second attempt no longer checks
for 202: both executors make exactly 2 attempts (one 5-second sleep) and
return the empty result instead of raising DeviceUnavailable. -/
theorem c3_device_busy_drops_check202 :
    internal_call_asynch server202 10 0 2 true =
      some ([.request 2 true, .sleep 5, .request 1 false], .ok .emptyResult) ∧
    internal_call_sync server202 10 0 2 true =
      some ([.request 2 true, .sleep 5, .request 1 false], .ok .emptyResult) := by
  constructor <;> decide

/-- C4 counterexample: the synchronous executor's rate-limit retry
(`self._internal_call(method, url, payload, params)`) resets `retries` to
its default `0` instead of keeping the caller's value `2`: the re-issued
request carries `retries = 0`, not `2` as the claim requires. -/
theorem c4_counterexample_sync_resets_retries :
    internal_call_sync server429then200 10 0 2 true =
      some ([.request 2 true, .sleep 0, .request 0 false], .ok (.result "x")) ∧
    (0 : Nat) ≠ 2 := by
  constructor <;> decide

/-- C4 (amended): any 429 or 5xx response makes `_check_response` raise
RateLimited carrying the `Retry-After` header value (0 when absent); the
asynchronous executor's rate-limit loop sleeps that long and re-issues the
call with `options.retries` unchanged, while the synchronous executor's
loop re-issues with `retries` reset to its default 0 (and `check_202`
reset to False in both). -/
theorem c4_rate_limit_retry (r : Resp)
    (hs : r.status = 429 ∨ (500 ≤ r.status ∧ r.status < 600)) :
    checkResponse r = some (.rateLimited (r.retryAfter.getD 0)) ∧
    (∀ (server : Nat → Resp) (fuel attempt retries : Nat) (check202 : Bool),
      server attempt = r →
      internal_call_asynch server (fuel + 1) attempt retries check202 =
        Option.map (fun eo =>
            (ExecEvent.request retries check202 ::
              ExecEvent.sleep (r.retryAfter.getD 0) :: eo.1, eo.2))
          (internal_call_asynch server fuel (attempt + 1) retries false)) ∧
    (∀ (server : Nat → Resp) (fuel attempt retries : Nat) (check202 : Bool),
      server attempt = r →
      internal_call_sync server (fuel + 1) attempt retries check202 =
        Option.map (fun eo =>
            (ExecEvent.request retries check202 ::
              ExecEvent.sleep (r.retryAfter.getD 0) :: eo.1, eo.2))
          (internal_call_sync server fuel (attempt + 1) 0 false)) := by
  have hchk : checkResponse r = some (.rateLimited (r.retryAfter.getD 0)) := by
    unfold checkResponse
    rcases hs with hs | hs
    · rw [if_pos (by omega)]
      rw [if_pos (by simp [hs])]
    · rw [if_pos (by omega)]
      rw [if_pos (by simp; omega)]
  refine ⟨hchk, ?_, ?_⟩
  · intro server fuel attempt retries check202 hserver
    show (let r0 := server attempt
          let ev : ExecEvent := .request retries check202
          if r0.status == 304 then some ([ev], .ok .cachedResult)
          else if check202 && r0.status == 202 then
            if 0 < retries then
              match internal_call_asynch server fuel (attempt + 1) (retries - 1) false with
              | none => none
              | some (evs, out) => some (ev :: .sleep 5 :: evs, out)
            else some ([ev], .error .deviceUnavailable)
          else
            match checkResponse r0 with
            | some (.rateLimited ra) =>
              match internal_call_asynch server fuel (attempt + 1) retries false with
              | none => none
              | some (evs, out) => some (ev :: .sleep ra :: evs, out)
            | some e => some ([ev], .error e)
            | none =>
              if r0.text ≠ "" && r0.text ≠ "null" then some ([ev], .ok (.result r0.text))
              else some ([ev], .ok .emptyResult)) = _
    simp only [hserver]
    rw [if_neg (by simp; omega), if_neg (by simp; omega), hchk]
    cases internal_call_asynch server fuel (attempt + 1) retries false with
    | none => rfl
    | some eo => cases eo; rfl
  · intro server fuel attempt retries check202 hserver
    show (let r0 := server attempt
          let ev : ExecEvent := .request retries check202
          if check202 && r0.status == 202 then
            if 0 < retries then
              match internal_call_sync server fuel (attempt + 1) (retries - 1) false with
              | none => none
              | some (evs, out) => some (ev :: .sleep 5 :: evs, out)
            else some ([ev], .error .deviceUnavailable)
          else
            match checkResponse r0 with
            | some (.rateLimited ra) =>
              match internal_call_sync server fuel (attempt + 1) 0 false with
              | none => none
              | some (evs, out) => some (ev :: .sleep ra :: evs, out)
            | some e => some ([ev], .error e)
            | none =>
              if r0.text ≠ "" && r0.text ≠ "null" then some ([ev], .ok (.result r0.text))
              else some ([ev], .ok .emptyResult)) = _
    simp only [hserver]
    rw [if_neg (by simp; omega), hchk]
    cases internal_call_sync server fuel (attempt + 1) 0 false with
    | none => rfl
    | some eo => cases eo; rfl

/-- C4 witness: instantiated at a concrete 429 response carrying
`Retry-After: 3`. -/
theorem c4_rate_limit_retry_witness :
    checkResponse ⟨429, some 3, ""⟩ = some (.rateLimited 3) :=
  (c4_rate_limit_retry ⟨429, some 3, ""⟩ (Or.inl rfl)).1

/-- C2 counterexample: the two parameter dicts hold exactly the same
key/value pairs, only inserted in a different order, yet `_get_cache_key`
produces different fingerprints: `json.dumps` serializes a dict in
insertion order, so the hashed streams differ. -/
theorem c2_counterexample_order_matters :
    (∀ kv ∈ paramsAB, kv ∈ paramsBA) ∧ (∀ kv ∈ paramsBA, kv ∈ paramsAB) ∧
    get_cache_key "https://api.spotify.com/v1/search" paramsAB none ≠
      get_cache_key "https://api.spotify.com/v1/search" paramsBA none := by
  refine ⟨by decide, by decide, by decide⟩

/-- C2 (amended): for a fixed url and body, the cache-key fingerprint is
deterministic but order-DEPENDENT: two non-empty parameter dicts produce
the same fingerprint exactly when their `json.dumps` serializations (which
follow insertion order) coincide.  The same pairs in a different insertion
order generally serialize differently and then hash differently. -/
theorem c2_cache_key_serialization (url : String) (payload : Option String)
    (p q : List (String × JVal)) (hp : p ≠ []) (hq : q ≠ []) :
    (get_cache_key url p payload = get_cache_key url q payload ↔
      jsonDumps p = jsonDumps q) := by
  have hpe : p.isEmpty = false := by
    cases p with
    | nil => exact absurd rfl hp
    | cons a l => rfl
  have hqe : q.isEmpty = false := by
    cases q with
    | nil => exact absurd rfl hq
    | cons a l => rfl
  simp only [get_cache_key, sha1hex]
  rw [if_neg (by simp [hpe]), if_neg (by simp [hqe])]
  cases payload with
  | none =>
    dsimp only
    simp only [Sha1.mk.injEq, List.append_cancel_left_eq]
    exact String.ext_iff.symm
  | some pl =>
    dsimp only
    by_cases hpl : pl = ""
    · rw [if_pos hpl, if_pos hpl]
      simp only [Sha1.mk.injEq, List.append_cancel_left_eq]
      exact String.ext_iff.symm
    · rw [if_neg hpl, if_neg hpl]
      simp only [Sha1.mk.injEq, List.append_assoc, List.append_cancel_left_eq,
        List.append_cancel_right_eq]
      exact String.ext_iff.symm

/-- C2 witness: the amended statement instantiated at the counterexample's
parameter dicts. -/
theorem c2_cache_key_serialization_witness :
    get_cache_key "https://api.spotify.com/v1/search" paramsAB none =
        get_cache_key "https://api.spotify.com/v1/search" paramsBA none ↔
      jsonDumps paramsAB = jsonDumps paramsBA :=
  c2_cache_key_serialization "https://api.spotify.com/v1/search" none paramsAB
    paramsBA (by decide) (by decide)

/-! ### Facts about `pyRange` used by the pagination claim -/

theorem map_offset_id (l : List Nat) (rest : List (String × String)) (k : Nat) :
    (l.map (fun off => (⟨rest, k, off⟩ : NextParams))).map (·.offset) = l := by
  induction l with
  | nil => rfl
  | cons a t ih => simp [ih]

theorem pyRange_get? (s t k i : Nat) (hi : i < (pyRange s t k).length) :
    (pyRange s t k).get? i = some (s + i * k) := by
  unfold pyRange at hi ⊢
  rw [List.get?_map, List.get?_range (by simpa using hi)]
  rfl

theorem pyRange_mem_lt (s t k : Nat) (hk : 1 ≤ k) :
    ∀ x ∈ pyRange s t k, x < t := by
  intro x hx
  unfold pyRange at hx
  rcases List.mem_map.mp hx with ⟨i, hi, rfl⟩
  rw [List.mem_range] at hi
  have h1 : i + 1 ≤ (t - s + (k - 1)) / k := hi
  have h2 : (i + 1) * k ≤ ((t - s + (k - 1)) / k) * k := Nat.mul_le_mul_right k h1
  have h3 : ((t - s + (k - 1)) / k) * k ≤ t - s + (k - 1) := Nat.div_mul_le_self _ _
  have h5 : (1 : Nat) ≤ (t - s + (k - 1)) / k := by omega
  have h4 : 1 * k ≤ t - s + (k - 1) :=
    le_trans (Nat.mul_le_mul_right k h5) h3
  have hd : (i + 1) * k = i * k + k := by ring
  omega

/-- C5: derived pagination offsets step by the chosen page size, start at
the initial page's `offset + limit`, never reach `total`, and for the
spec's boundary instance (total 120, page size 50, first page offset 0 and
limit 50) are exactly `[50, 100]`. -/
theorem c5_pagination_offsets (page : Page) (limitArg : Option Nat) :
    (∀ i, i + 1 < (derivedOffsets page limitArg).length →
      (derivedOffsets page limitArg).get? (i + 1) =
        ((derivedOffsets page limitArg).get? i).map (· + pageSize limitArg)) ∧
    (∀ o ∈ derivedOffsets page limitArg, o < page.total) ∧
    (derivedOffsets page limitArg ≠ [] →
      (derivedOffsets page limitArg).head? =
        some (pageOffset page + pageLimit page)) ∧
    derivedOffsets page120 none = [50, 100] := by
  have hps : 1 ≤ pageSize limitArg := by
    cases limitArg with
    | none => simp [pageSize]
    | some n =>
      cases n with
      | zero => simp [pageSize]
      | succ m => simp [pageSize]
  have hoffs : derivedOffsets page limitArg =
      (if truthyStr page.nextUrl && truthyStr page.href then
        pyRange (pageOffset page + pageLimit page) page.total (pageSize limitArg)
       else []) := by
    unfold derivedOffsets get_next_params_list
    by_cases hcond : (truthyStr page.nextUrl && truthyStr page.href) = true
    · rw [if_pos hcond, if_pos hcond]
      exact map_offset_id _ _ _
    · rw [if_neg hcond, if_neg hcond]
      rfl
  refine ⟨?_, ?_, ?_, by decide⟩
  · intro i hi
    rw [hoffs] at hi ⊢
    by_cases hcond : (truthyStr page.nextUrl && truthyStr page.href) = true
    · rw [if_pos hcond] at hi ⊢
      rw [pyRange_get? _ _ _ _ hi, pyRange_get? _ _ _ _ (by omega)]
      simp only [Option.map]
      congr 1
      ring
    · rw [if_neg hcond] at hi
      simp at hi
  · intro o ho
    rw [hoffs] at ho
    by_cases hcond : (truthyStr page.nextUrl && truthyStr page.href) = true
    · rw [if_pos hcond] at ho
      exact pyRange_mem_lt _ _ _ hps o ho
    · rw [if_neg hcond] at ho
      simp at ho
  · intro hne
    rw [hoffs] at hne ⊢
    by_cases hcond : (truthyStr page.nextUrl && truthyStr page.href) = true
    · rw [if_pos hcond] at hne ⊢
      have h0 : 0 < (pyRange (pageOffset page + pageLimit page) page.total
          (pageSize limitArg)).length := List.length_pos.mpr hne
      rw [← List.get?_zero, pyRange_get? _ _ _ _ h0]
      simp
    · rw [if_neg hcond] at hne
      exact absurd rfl hne

/-- C5 witness: the head-offset clause instantiated at the boundary page. -/
theorem c5_pagination_offsets_witness :
    (derivedOffsets page120 none).head? =
      some (pageOffset page120 + pageLimit page120) :=
  (c5_pagination_offsets page120 none).2.2.1 (by decide)

theorem take_map_nil_drop_nil {V : Type} (ops : List (Op V)) (limit : Nat)
    (hlim : 1 ≤ limit) :
    (ops.take limit).map ensure_future = [] → ops.drop limit = [] := by
  intro hnil
  cases ops with
  | nil => exact List.drop_nil
  | cons a l =>
    cases limit with
    | zero => omega
    | succ m => simp [List.take] at hnil

theorem take_drop_length_sum {V : Type} (ops : List (Op V)) (limit : Nat) :
    ((ops.take limit).map ensure_future).length + (ops.drop limit).length =
      ops.length := by
  simp [List.length_take, List.length_drop]
  omega

/-- C1: for every `limit ≥ 1` and finite operation source in which no
operation can raise an unignored exception, the Limiter's in-flight count
never exceeds `limit` at any scheduler round, the run yields exactly one
outcome per operation, and no error propagates. -/
theorem c1_limiter_bound_and_completeness (V : Type) (ops : List (Op V))
    (limit : Nat) (ignore : IgnoreArg) (hlim : 1 ≤ limit)
    (hok : ∀ op ∈ ops, okOrIgnored ignore op.outcome) :
    (∀ c ∈ (limited_as_completed ops limit ignore).counts, c ≤ limit) ∧
    (limited_as_completed ops limit ignore).yields.length = ops.length ∧
    (limited_as_completed ops limit ignore).error = none := by
  have hfsI : ∀ f ∈ (ops.take limit).map ensure_future,
      okOrIgnored ignore f.outcome := by
    intro f hf
    rcases List.mem_map.mp hf with ⟨op, hop, rfl⟩
    exact hok op (List.take_subset _ _ hop)
  have hpI : ∀ p ∈ ops.drop limit, okOrIgnored ignore p.outcome :=
    fun p hp => hok p (List.drop_subset _ _ hp)
  have hml := take_drop_length_sum ops limit
  have hrun := lac_loop_ok_run (V := V) ops.length ((ops.take limit).map ensure_future)
    (ops.drop limit) ignore (ops.take limit).length (le_of_eq hml) hfsI hpI
    (take_map_nil_drop_nil ops limit hlim)
  refine ⟨?_, hrun.2.1.trans hml, hrun.1⟩
  intro c hc
  refine lac_loop_counts_le ops.length _ _ ignore _ limit (le_of_eq hml) ?_ c hc
  simp [List.length_take]

/-- C1 witness: three operations (two succeed, one raises the ignored
`KeyError`), limit 2. -/
theorem c1_witness :
    (∀ c ∈ (limited_as_completed
        [(⟨0, Except.ok 10⟩ : Op Nat), ⟨1, Except.ok 20⟩,
          ⟨0, Except.error ⟨ExcClass.keyError⟩⟩] 2
        (.tupleOf [ExcClass.keyError])).counts, c ≤ 2) ∧
    (limited_as_completed
        [(⟨0, Except.ok 10⟩ : Op Nat), ⟨1, Except.ok 20⟩,
          ⟨0, Except.error ⟨ExcClass.keyError⟩⟩] 2
        (.tupleOf [ExcClass.keyError])).yields.length = 3 ∧
    (limited_as_completed
        [(⟨0, Except.ok 10⟩ : Op Nat), ⟨1, Except.ok 20⟩,
          ⟨0, Except.error ⟨ExcClass.keyError⟩⟩] 2
        (.tupleOf [ExcClass.keyError])).error = none := by
  refine c1_limiter_bound_and_completeness Nat _ 2 _ (by omega) ?_
  intro op hop e he
  simp only [List.mem_cons, List.not_mem_nil, or_false] at hop
  rcases hop with h | h | h
  · subst h
    simp at he
  · subst h
    simp at he
  · subst h
    injection he with h2
    subst h2
    decide

/-- C6 counterexample: under ignore-all (`ignore_exceptions=True`), a
single failing operation still contributes one element to the output —
the generator yields the `None` returned by `first_to_finish` — so the
slot yields a placeholder value, not nothing. -/
theorem c6_counterexample_none_placeholder :
    (limited_as_completed [(⟨0, Except.error ⟨ExcClass.valueError⟩⟩ : Op Nat)] 1
        IgnoreArg.boolTrue).yields = [none] ∧
    ([none] : List (Option Nat)) ≠ ([] : List (Option Nat)) := by
  constructor
  · rw [limited_single_error,
      if_pos (show should_ignore_exception ⟨ExcClass.valueError⟩ IgnoreArg.boolTrue
        = true from rfl)]
  · decide

/-- C6 (amended): when an operation fails with an exception matched by the
ignore policy, the failure is logged and that slot contributes a `None`
placeholder to the output (scheduling continues, so the run still yields
one element per operation and no error propagates): the number of `None`
yields and of logged exceptions both equal the number of failing
operations. -/
theorem c6_ignored_failure_yields_none (V : Type) (ops : List (Op V))
    (limit : Nat) (ignore : IgnoreArg) (hlim : 1 ≤ limit)
    (hok : ∀ op ∈ ops, okOrIgnored ignore op.outcome) :
    (limited_as_completed ops limit ignore).error = none ∧
    (limited_as_completed ops limit ignore).yields.length = ops.length ∧
    (limited_as_completed ops limit ignore).yields.countP (fun v => v.isNone) =
      errCount (ops.map (·.outcome)) ∧
    (limited_as_completed ops limit ignore).logged.length =
      errCount (ops.map (·.outcome)) := by
  have hfsI : ∀ f ∈ (ops.take limit).map ensure_future,
      okOrIgnored ignore f.outcome := by
    intro f hf
    rcases List.mem_map.mp hf with ⟨op, hop, rfl⟩
    exact hok op (List.take_subset _ _ hop)
  have hpI : ∀ p ∈ ops.drop limit, okOrIgnored ignore p.outcome :=
    fun p hp => hok p (List.drop_subset _ _ hp)
  have hml := take_drop_length_sum ops limit
  have hrun := lac_loop_ok_run (V := V) ops.length ((ops.take limit).map ensure_future)
    (ops.drop limit) ignore (ops.take limit).length (le_of_eq hml) hfsI hpI
    (take_map_nil_drop_nil ops limit hlim)
  have hsplit : errCount (((ops.take limit).map ensure_future).map (·.outcome)) +
      errCount ((ops.drop limit).map (·.outcome)) =
      errCount (ops.map (·.outcome)) := by
    rw [List.map_map]
    have hco : ((fun f : Fut V => f.outcome) ∘ ensure_future) =
        fun op : Op V => op.outcome := rfl
    rw [hco]
    unfold errCount
    rw [← List.countP_append, ← List.map_append, List.take_append_drop]
  exact ⟨hrun.1, hrun.2.1.trans hml, hrun.2.2.2.1.trans hsplit,
    hrun.2.2.2.2.trans hsplit⟩

/-- C6 witness: two operations, one failing with an ignored `ValueError`. -/
theorem c6_witness :
    (limited_as_completed
        [(⟨0, Except.error ⟨ExcClass.valueError⟩⟩ : Op Nat), ⟨0, Except.ok 5⟩] 1
        IgnoreArg.boolTrue).error = none ∧
    (limited_as_completed
        [(⟨0, Except.error ⟨ExcClass.valueError⟩⟩ : Op Nat), ⟨0, Except.ok 5⟩] 1
        IgnoreArg.boolTrue).yields.length = 2 ∧
    (limited_as_completed
        [(⟨0, Except.error ⟨ExcClass.valueError⟩⟩ : Op Nat), ⟨0, Except.ok 5⟩] 1
        IgnoreArg.boolTrue).yields.countP (fun v => v.isNone) =
      errCount (([(⟨0, Except.error ⟨ExcClass.valueError⟩⟩ : Op Nat),
        ⟨0, Except.ok 5⟩]).map (·.outcome)) ∧
    (limited_as_completed
        [(⟨0, Except.error ⟨ExcClass.valueError⟩⟩ : Op Nat), ⟨0, Except.ok 5⟩] 1
        IgnoreArg.boolTrue).logged.length =
      errCount (([(⟨0, Except.error ⟨ExcClass.valueError⟩⟩ : Op Nat),
        ⟨0, Except.ok 5⟩]).map (·.outcome)) := by
  refine c6_ignored_failure_yields_none Nat _ 1 IgnoreArg.boolTrue (by omega) ?_
  intro op hop e he
  simp only [List.mem_cons, List.not_mem_nil, or_false] at hop
  rcases hop with h | h
  · subst h
    injection he with h2
    subst h2
    decide
  · subst h
    simp at he

/-- C7: when a non-ignored exception propagates out of the Limiter, it is
wrapped together with the still-in-flight sibling futures (already
including the backfilled one); every operation is accounted for as either
already yielded, the failed one, still in flight, or never started — so no
further results are yielded — and the Limiter has cancelled none of the
remaining futures. -/
theorem c7_unignored_error_wraps_and_stops (V : Type) (ops : List (Op V))
    (limit : Nat) (ignore : IgnoreArg) (e : PyExc) (rem : List (Fut V))
    (herr : (limited_as_completed ops limit ignore).error = some (e, rem)) :
    (limited_as_completed ops limit ignore).yields.length + 1 + rem.length +
        (limited_as_completed ops limit ignore).leftover.length = ops.length ∧
    ∀ g ∈ rem, g.cancelled = false := by
  have hC : ∀ f ∈ (ops.take limit).map ensure_future, f.cancelled = false := by
    intro f hf
    rcases List.mem_map.mp hf with ⟨op, _, rfl⟩
    rfl
  have hml := take_drop_length_sum ops limit
  have hrun := lac_loop_error_run (V := V) ops.length
    ((ops.take limit).map ensure_future) (ops.drop limit) ignore
    (ops.take limit).length e rem (le_of_eq hml) hC herr
  exact ⟨hrun.1.trans hml, hrun.2⟩

/-- C7 witness: a single operation failing with an unignored `KeyError`. -/
theorem c7_witness :
    (limited_as_completed [(⟨0, Except.error ⟨ExcClass.keyError⟩⟩ : Op Nat)] 1
        IgnoreArg.boolFalse).yields.length + 1 + ([] : List (Fut Nat)).length +
      (limited_as_completed [(⟨0, Except.error ⟨ExcClass.keyError⟩⟩ : Op Nat)] 1
        IgnoreArg.boolFalse).leftover.length = 1 ∧
    ∀ g ∈ ([] : List (Fut Nat)), g.cancelled = false := by
  have herr : (limited_as_completed [(⟨0, Except.error ⟨ExcClass.keyError⟩⟩ : Op Nat)]
      1 IgnoreArg.boolFalse).error = some (⟨ExcClass.keyError⟩, []) := by
    rw [limited_single_error,
      if_neg (show ¬ should_ignore_exception ⟨ExcClass.keyError⟩ IgnoreArg.boolFalse
        = true by decide)]
  exact c7_unignored_error_wraps_and_stops Nat _ 1 IgnoreArg.boolFalse
    ⟨ExcClass.keyError⟩ [] herr

/-- C8: at the instant of the `(i+1)`-th yield the Limiter has already
started `min (limit + i + 1) N` operations: the freed slot is backfilled
from the source before the result is yielded, and the clamp at `N` is the
no-op read past the exhausted source. -/
theorem c8_backfill_before_yield (V : Type) (ops : List (Op V)) (limit : Nat)
    (ignore : IgnoreArg) (i : Nat)
    (hi : i < (limited_as_completed ops limit ignore).startCounts.length) :
    (limited_as_completed ops limit ignore).startCounts.get? i =
      some (min (limit + i + 1) ops.length) := by
  have hml := take_drop_length_sum ops limit
  have hs := lac_loop_startCounts_spec (V := V) ops.length
    ((ops.take limit).map ensure_future) (ops.drop limit) ignore
    (ops.take limit).length (le_of_eq hml) i hi
  have heq : min ((ops.take limit).length + i + 1)
      ((ops.take limit).length + (ops.drop limit).length) =
      min (limit + i + 1) ops.length := by
    simp [List.length_take, List.length_drop]
    omega
  exact hs.trans (congrArg some heq)

/-- C8 witness: two immediate operations with limit 1; at the first yield
both operations have already been started. -/
theorem c8_witness :
    (limited_as_completed [(⟨0, Except.ok 1⟩ : Op Nat), ⟨0, Except.ok 2⟩] 1
        IgnoreArg.boolFalse).startCounts.get? 0 = some 2 := by
  have hF := lac_loop_startCounts_length (V := Nat) 2
    [ensure_future ⟨0, Except.ok 1⟩] [⟨0, Except.ok 2⟩] IgnoreArg.boolFalse 1
    (by simp)
  have hB := lac_loop_ok_run (V := Nat) 2 [ensure_future ⟨0, Except.ok 1⟩]
    [⟨0, Except.ok 2⟩] IgnoreArg.boolFalse 1 (by simp)
    (by
      intro f hf e he
      rw [List.mem_singleton.mp hf] at he
      simp [ensure_future] at he)
    (by
      intro p hp e he
      rw [List.mem_singleton.mp hp] at he
      simp at he)
    (by intro hcon; simp at hcon)
  have hlen : (limited_as_completed [(⟨0, Except.ok 1⟩ : Op Nat), ⟨0, Except.ok 2⟩]
      1 IgnoreArg.boolFalse).startCounts.length = 2 := by
    show (lac_loop [ensure_future (⟨0, Except.ok 1⟩ : Op Nat)]
      [(⟨0, Except.ok 2⟩ : Op Nat)] IgnoreArg.boolFalse 1).startCounts.length = 2
    rw [hF, hB.2.1]
    rfl
  have hres := c8_backfill_before_yield Nat
    [(⟨0, Except.ok 1⟩ : Op Nat), ⟨0, Except.ok 2⟩] 1 IgnoreArg.boolFalse 0
    (by rw [hlen]; omega)
  simpa using hres

/-- C10: `should_ignore_exception` tests
`isinstance(ignore_exceptions, (tuple, Exception))`, and a bare exception
class is an instance of `type`, not of `tuple` or `Exception`, so the
guard fails and the function returns False even when the raised exception
is an instance of that class — `limited_as_completed` then propagates the
failure (wrapped with the remaining futures) instead of ignoring it. -/
theorem c10_bare_class_never_ignores (exc : PyExc) (c : ExcClass)
    (hsub : exc.cls.isSubclassOf c = true) :
    should_ignore_exception exc (.classOf c) = false ∧
    (limited_as_completed [(⟨0, Except.error exc⟩ : Op Nat)] 1
        (.classOf c)).error = some (exc, []) := by
  have hfalse : should_ignore_exception exc (.classOf c) = false := rfl
  refine ⟨hfalse, ?_⟩
  rw [limited_single_error, if_neg (by simp [hfalse])]

/-- C10 witness: a `ValueError` instance against the bare class
`ValueError` itself. -/
theorem c10_witness :
    should_ignore_exception ⟨ExcClass.valueError⟩ (.classOf ExcClass.valueError)
      = false :=
  (c10_bare_class_never_ignores ⟨ExcClass.valueError⟩ ExcClass.valueError
    (by decide)).1

theorem filterMap_id_map_some {α : Type} (l : List α) :
    (l.map some).filterMap id = l := by
  induction l with
  | nil => rfl
  | cons a t ih => simp [ih]

/-- C9 counterexample: a page with items of its own and no `next` URL.
The synchronous `all` returns `[]`, while the asynchronous `all` (which
first drains the initial page's own items) returns those items — the two
Page Walkers do not produce the same sequence. -/
theorem c9_counterexample_initial_items :
    all_asynch pageNoNext (fun _ => []) none (fun _ => 0) 2 = [7, 8] ∧
    all_sync pageNoNext (fun _ => []) none = ([] : List Nat) ∧
    ([7, 8] : List Nat) ≠ ([] : List Nat) := by
  refine ⟨?_, rfl, by decide⟩
  unfold all_asynch
  have hps : get_next_params_list pageNoNext none = [] := rfl
  rw [hps]
  have hops : pageOps [] (fun _ => ([] : List Nat)) (fun _ => 0) = [] := rfl
  rw [hops]
  have hrun : limited_as_completed ([] : List (Op (List Nat))) 2 IgnoreArg.boolFalse =
      ⟨[], none, [], [], [], []⟩ := by
    unfold limited_as_completed
    rw [List.take_nil, List.drop_nil]
    simp only [List.map_nil, List.length_nil]
    exact lac_loop_eq_nil [] IgnoreArg.boolFalse 0
  rw [hrun]
  rfl

/-- C9 (amended): the two Page Walkers agree on the subsequent pages but
not on the initial one: when the subsequent pages complete in submission
order (zero-round operations), the asynchronous `all()` equals the
initial page's own items followed by the synchronous `all()`'s output —
so the two coincide only when the initial page contributes no items, and
in particular they differ on a page with items but no `next` URL. -/
theorem c9_asynch_prepends_initial_items (page : Page) (fetch : NextParams → List Nat)
    (limitArg : Option Nat) (conc : Nat) (hconc : 1 ≤ conc) :
    all_asynch page fetch limitArg (fun _ => 0) conc =
      page.items ++ all_sync page fetch limitArg := by
  unfold all_asynch all_sync
  by_cases hnil : get_next_params_list page limitArg = []
  · rw [hnil]
    have hops : pageOps [] fetch (fun _ => 0) = [] := rfl
    rw [hops]
    have hrun : limited_as_completed ([] : List (Op (List Nat))) conc
        IgnoreArg.boolFalse = ⟨[], none, [], [], [], []⟩ := by
      unfold limited_as_completed
      rw [List.take_nil, List.drop_nil]
      simp only [List.map_nil, List.length_nil]
      exact lac_loop_eq_nil [] IgnoreArg.boolFalse 0
    rw [hrun]
    rfl
  · have hopsZ : ∀ op ∈ pageOps (get_next_params_list page limitArg) fetch
        (fun _ => 0), op.ticks = 0 ∧ op.outcome.isOk = true := by
      intro op hop
      unfold pageOps at hop
      rcases List.mem_map.mp hop with ⟨ip, _, rfl⟩
      exact ⟨rfl, rfl⟩
    have hml := take_drop_length_sum
      (pageOps (get_next_params_list page limitArg) fetch (fun _ => 0)) conc
    have hyields : (limited_as_completed
        (pageOps (get_next_params_list page limitArg) fetch (fun _ => 0)) conc
        IgnoreArg.boolFalse).yields =
        (pageOps (get_next_params_list page limitArg) fetch (fun _ => 0)).map
          (fun op => op.outcome.toOption) := by
      unfold limited_as_completed
      rw [lac_loop_inorder
        (pageOps (get_next_params_list page limitArg) fetch (fun _ => 0)).length
        _ _ IgnoreArg.boolFalse _ (le_of_eq hml)
        (by
          intro f hf
          rcases List.mem_map.mp hf with ⟨op, hop, rfl⟩
          exact (hopsZ op (List.take_subset _ _ hop)).1)
        (fun p hp => (hopsZ p (List.drop_subset _ _ hp)).1)
        (by
          intro f hf
          rcases List.mem_map.mp hf with ⟨op, hop, rfl⟩
          exact (hopsZ op (List.take_subset _ _ hop)).2)
        (fun p hp => (hopsZ p (List.drop_subset _ _ hp)).2)
        (take_map_nil_drop_nil _ conc hconc)]
      rw [List.map_map]
      have hco : ((fun f : Fut (List Nat) => f.outcome.toOption) ∘ ensure_future) =
          fun op : Op (List Nat) => op.outcome.toOption := rfl
      rw [hco, ← List.map_append, List.take_append_drop]
    rw [hyields]
    have hmap : (pageOps (get_next_params_list page limitArg) fetch
        (fun _ => 0)).map (fun op => op.outcome.toOption) =
        ((get_next_params_list page limitArg).map fetch).map some := by
      unfold pageOps
      rw [List.map_map]
      have hc1 : ((fun op : Op (List Nat) => op.outcome.toOption) ∘
          fun ip : Nat × NextParams =>
            (⟨(fun _ => (0 : Nat)) ip.1, Except.ok (fetch ip.2)⟩ : Op (List Nat))) =
          ((fun l : List Nat => some l) ∘ fetch) ∘ Prod.snd := rfl
      rw [hc1, ← List.map_map, ← List.map_map, List.enum_map_snd]
    rw [hmap, filterMap_id_map_some]
    have hpse : (get_next_params_list page limitArg).isEmpty = false := by
      cases hgp : get_next_params_list page limitArg with
      | nil => exact absurd hgp hnil
      | cons a l => rfl
    rw [if_neg (by simp [hpse])]

/-- C9 witness: the amended statement instantiated at the boundary page
with a fetch oracle returning a singleton item per page. -/
theorem c9_witness :
    all_asynch page120 (fun p => [p.offset]) none (fun _ => 0) 4 =
      page120.items ++ all_sync page120 (fun p => [p.offset]) none :=
  c9_asynch_prepends_initial_items page120 (fun p => [p.offset]) none 4 (by omega)

end Spfy
